import Mathlib

/-!
Shallow embedding of src/build.py (country-language-data).

Strings are modelled as List Char.  Python str.lower is modelled as the
ASCII lowercase map (the reference data is ASCII), str.split() as
whitespace-run splitting, str.strip() as trimming whitespace on both
ends.  Python float values are modelled as exact rationals (no claim in
this development depends on binary rounding); float(s) applied to a
string with a comma separator fails, which is modelled by Option.
The console warnings printed by the source are side effects with no
influence on return values and are not modelled.
-/

/-- Whitespace test used by str.split and str.strip. -/
def isWsC (c : Char) : Bool := c == ' ' || c == '\t' || c == '\n' || c == '\r'

/-- ASCII lowercase of one character, modelling str.lower per character. -/
def pyLowerChar (c : Char) : Char :=
  if 65 ≤ c.toNat ∧ c.toNat ≤ 90 then Char.ofNat (c.toNat + 32) else c

/-- str.lower on a whole string. -/
def pyLower (s : List Char) : List Char := s.map pyLowerChar

/-- str.strip: drop whitespace from both ends. -/
def pyStrip (s : List Char) : List Char :=
  ((s.dropWhile isWsC).reverse.dropWhile isWsC).reverse

/-- Python slice s[a:b] (0 <= a, b clipped at the length). -/
def pySlice (s : List Char) (a b : Nat) : List Char := (s.take b).drop a

/-- Python substring test, sub in s. -/
def containsSubstr (sub : List Char) : List Char → Bool
  | [] => sub.isEmpty
  | c :: rest => sub.isPrefixOf (c :: rest) || containsSubstr sub rest

/-- Extends the first piece of a split result by one character. -/
def consHead (c : Char) : List (List Char) → List (List Char)
  | [] => [[c]]
  | w :: ws => (c :: w) :: ws

/-- Cuts a string at every whitespace character, keeping empty pieces. -/
def splitAtWs : List Char → List (List Char)
  | [] => [[]]
  | c :: rest => if isWsC c then [] :: splitAtWs rest else consHead c (splitAtWs rest)

/-- str.split() with no argument: whitespace runs separate the words. -/
def pyWords (s : List Char) : List (List Char) := (splitAtWs s).filter (fun w => !w.isEmpty)

/-- str.join with a single-space separator. -/
def joinSp : List (List Char) → List Char
  | [] => []
  | [w] => w
  | w :: v :: ws => w ++ ' ' :: joinSp (v :: ws)

/-- str.split on the single-character separator used by the source. -/
def splitComma : List Char → List (List Char)
  | [] => [[]]
  | c :: rest => if c = ',' then [] :: splitComma rest else consHead c (splitComma rest)

/-- The literal separator of the alternation fallback. -/
def orSep : List Char := " or ".toList

/-- str.split on the four-character separator of the alternation fallback. -/
def splitOnOr (s : List Char) : List (List Char) :=
  match s with
  | [] => [[]]
  | c :: rest =>
    if orSep.isPrefixOf (c :: rest) then [] :: splitOnOr (rest.drop 3)
    else consHead c (splitOnOr rest)
termination_by s.length
decreasing_by
  · simp only [List.length_drop, List.length_cons]; omega
  · simp only [List.length_cons]; omega

/-- Python in-test for the alternation separator. -/
def containsOr (s : List Char) : Bool := containsSubstr orSep s

/-- First index of a character in a list, str.find on the suffix. -/
def charFindIdx (c : Char) : List Char → Option Nat
  | [] => none
  | x :: xs => if x = c then some 0 else (charFindIdx c xs).map (· + 1)

/-- str.find(c, start), returned as an offset from start. -/
def findIdxFrom (s : List Char) (c : Char) (start : Nat) : Option Nat :=
  charFindIdx c (s.drop start)

/-- Returns the first non-None element, as the for-loops of the source do. -/
def firstSome {α : Type} : List (Option α) → Option α
  | [] => none
  | some x :: _ => some x
  | none :: rest => firstSome rest

/-- dict.get on a table with unique keys, modelled as an assoc list. -/
def lookupD (codes : List (List Char × List Char)) (k : List Char) : Option (List Char) :=
  match codes with
  | [] => none
  | (k', v) :: rest => if k = k' then some v else lookupD rest k

/-!  The Segmenter: split_lang_descr of the source.

The Python while-loop advances a cursor that strictly increases at every
iteration and is bounded by the length of the string, so the loop runs at
most length-many iterations; the fuel argument descr.length + 1 therefore
never runs out and the zero-fuel branch is unreachable. -/

/-- Loop body of split_lang_descr: state is cursor, lng_start and the
inside-parenthesis flag; returns the entries emitted from this state on. -/
def splitLoop (descr : List Char) : Nat → Nat → Nat → Bool → List (List Char)
  | 0, _, _, _ => []
  | fuel + 1, cursor, lngStart, inside =>
    if cursor < descr.length then
      if inside then
        match findIdxFrom descr ')' cursor with
        | none => [pyStrip (pySlice descr lngStart (descr.length - 1))]
        | some i => splitLoop descr fuel (cursor + i + 1) lngStart false
      else
        match findIdxFrom descr '(' cursor, findIdxFrom descr ',' cursor with
        | none, none => [pyStrip (pySlice descr lngStart (descr.length - 1))]
        | some pi, none => splitLoop descr fuel (cursor + pi + 1) lngStart true
        | none, some ci =>
          pyStrip (pySlice descr lngStart (cursor + ci)) ::
            splitLoop descr fuel (cursor + ci + 1) (cursor + ci + 1) false
        | some pi, some ci =>
          if ci < pi then
            pyStrip (pySlice descr lngStart (cursor + ci)) ::
              splitLoop descr fuel (cursor + ci + 1) (cursor + ci + 1) false
          else splitLoop descr fuel (cursor + pi + 1) lngStart true
    else []

/-- split_lang_descr: split a language list description by comma, taking
care of parenthesis (the loop of lines 21-48 of the source). -/
def split_lang_descr (descr : List Char) : List (List Char) :=
  splitLoop descr (descr.length + 1) 0 0 false

/-!  The Name Normalizer (two instances, lines 90-97 and 123-146). -/

/-- language_name.lower().split() respectively country_name.lower().split(). -/
def pyTokens (s : List Char) : List (List Char) := pyWords (pyLower s)

/-- ignored_words of find_language_code. -/
def langIgnored : List (List Char) := ["only".toList]

/-- ignored_words of find_country_code. -/
def countryIgnored : List (List Char) := ["the".toList, "only".toList]

/-- replaced_words of find_country_code, as a function on tokens. -/
def countryRep (w : List Char) : List Char :=
  if w = "and".toList then "&".toList
  else if w = "saint".toList then "st.".toList
  else w

/-- The sanitizing join of find_language_code lines 93-97 (no replacements). -/
def langSanitize (s : List Char) : List Char :=
  joinSp ((pyTokens s).filter (fun w => !(langIgnored.contains w)))

/-- The sanitizing join of find_country_code lines 126-130. -/
def countrySanitize (s : List Char) : List Char :=
  joinSp (((pyTokens s).filter (fun w => !(countryIgnored.contains w))).map countryRep)

/-- The literal alias table of find_country_code lines 137-146. -/
def countryAlias (name : List Char) : List Char :=
  if name = "burma".toList then "myanmar (burma)".toList
  else if name = "cabo verde".toList then "cape verde".toList
  else if name = "congo, democratic republic of".toList then "congo - kinshasa".toList
  else if name = "congo, republic of".toList then "congo - brazzaville".toList
  else if name = "gaza strip".toList then "palestinian territories".toList
  else if name = "west bank".toList then "palestinian territories".toList
  else if name = "hong kong".toList then "hong kong sar china".toList
  else if name = "macau".toList then "macao sar china".toList
  else if name = "svalbard".toList then "svalbard & jan mayen".toList
  else if name = "virgin islands".toList then "british virgin islands".toList
  else name

/-!  Length bounds used by the termination arguments of the resolvers. -/

theorem consHead_ne_nil (c : Char) (l : List (List Char)) : consHead c l ≠ [] := by
  cases l <;> simp [consHead]

theorem splitAtWs_ne_nil (s : List Char) : splitAtWs s ≠ [] := by
  induction s with
  | nil => simp [splitAtWs]
  | cons c rest ih =>
    simp only [splitAtWs]
    split
    · simp
    · exact consHead_ne_nil c _

theorem splitAtWs_counts (s : List Char) :
    ((splitAtWs s).map List.length).sum + (splitAtWs s).length = s.length + 1 := by
  induction s with
  | nil => simp [splitAtWs]
  | cons c rest ih =>
    simp only [splitAtWs]
    split
    · simp only [List.map_cons, List.sum_cons, List.length_cons, List.length_nil]
      omega
    · rcases h : splitAtWs rest with _ | ⟨w, ws⟩
      · exact absurd h (splitAtWs_ne_nil rest)
      · rw [h] at ih
        simp only [consHead, List.map_cons, List.sum_cons, List.length_cons] at ih ⊢
        omega

theorem joinSp_length (ws : List (List Char)) (h : ws ≠ []) :
    (joinSp ws).length + 1 = (ws.map List.length).sum + ws.length := by
  induction ws with
  | nil => exact absurd rfl h
  | cons w vs ih =>
    cases vs with
    | nil => simp [joinSp]
    | cons v vs' =>
      have hh := ih (by simp)
      simp only [joinSp, List.length_append, List.length_cons, List.map_cons,
        List.sum_cons] at hh ⊢
      omega

theorem joinSp_length_le_of_sublist (ws' ws : List (List Char)) (h : ws'.Sublist ws) :
    (joinSp ws').length ≤ (joinSp ws).length := by
  cases ws' with
  | nil => simp [joinSp]
  | cons w vs =>
    have hne : ws ≠ [] := by
      intro he
      subst he
      simp at h
    have h1 := joinSp_length (w :: vs) (by simp)
    have h2 := joinSp_length ws hne
    have hsum : ((w :: vs).map List.length).sum ≤ (ws.map List.length).sum :=
      List.Sublist.sum_le_sum (h.map List.length) (fun a _ => Nat.zero_le a)
    have hlen : (w :: vs).length ≤ ws.length := h.length_le
    omega

theorem joinSp_length_map_le (ws : List (List Char)) (f : List Char → List Char)
    (hf : ∀ w ∈ ws, (f w).length ≤ w.length) :
    (joinSp (ws.map f)).length ≤ (joinSp ws).length := by
  cases ws with
  | nil => simp [joinSp]
  | cons w vs =>
    have h1 := joinSp_length ((w :: vs).map f) (by simp)
    have h2 := joinSp_length (w :: vs) (by simp)
    have hsum : (((w :: vs).map f).map List.length).sum ≤ ((w :: vs).map List.length).sum := by
      rw [List.map_map]
      exact List.sum_le_sum (fun a ha => hf a ha)
    have hlen : ((w :: vs).map f).length = (w :: vs).length := by simp
    omega

theorem pyWords_joinSp_le (s : List Char) : (joinSp (pyWords s)).length ≤ s.length := by
  have h1 := splitAtWs_counts s
  have h2 := joinSp_length_le_of_sublist (pyWords s) (splitAtWs s) (List.filter_sublist _)
  have h3 := joinSp_length (splitAtWs s) (splitAtWs_ne_nil s)
  omega

theorem countryRep_length (w : List Char) : (countryRep w).length ≤ w.length := by
  unfold countryRep
  split_ifs with h1 h2
  · subst h1; decide
  · subst h2; decide
  · exact le_refl _

theorem langSanitize_length (s : List Char) : (langSanitize s).length ≤ s.length := by
  unfold langSanitize
  have h1 := joinSp_length_le_of_sublist _ (pyTokens s)
    (@List.filter_sublist _ (fun w => !(langIgnored.contains w)) (pyTokens s))
  have h2 := pyWords_joinSp_le (pyLower s)
  have h3 : (pyLower s).length = s.length := by simp [pyLower]
  unfold pyTokens at h1 ⊢
  omega

theorem countrySanitize_length (s : List Char) : (countrySanitize s).length ≤ s.length := by
  unfold countrySanitize
  have h0 := joinSp_length_map_le ((pyTokens s).filter (fun w => !(countryIgnored.contains w)))
    countryRep (fun w _ => countryRep_length w)
  have h1 := joinSp_length_le_of_sublist _ (pyTokens s)
    (@List.filter_sublist _ (fun w => !(countryIgnored.contains w)) (pyTokens s))
  have h2 := pyWords_joinSp_le (pyLower s)
  have h3 : (pyLower s).length = s.length := by simp [pyLower]
  unfold pyTokens at h0 h1 ⊢
  omega

theorem dropWhile_length_le (p : Char → Bool) (s : List Char) :
    (s.dropWhile p).length ≤ s.length := by
  induction s with
  | nil => simp
  | cons c rest ih =>
    rw [List.dropWhile_cons]
    split
    · exact Nat.le_succ_of_le ih
    · simp

theorem pyStrip_length_le (s : List Char) : (pyStrip s).length ≤ s.length := by
  unfold pyStrip
  have h1 := dropWhile_length_le isWsC s
  have h2 := dropWhile_length_le isWsC (s.dropWhile isWsC).reverse
  simp only [List.length_reverse] at *
  omega

theorem splitOnOr_ne_nil (s : List Char) : splitOnOr s ≠ [] := by
  rcases s with _ | ⟨c, rest⟩
  · rw [splitOnOr.eq_def]
    simp
  · rw [splitOnOr.eq_def]
    dsimp only
    split
    · simp
    · exact consHead_ne_nil c _

theorem isPrefixOf_orSep_length (s : List Char) (h : orSep.isPrefixOf s = true) :
    4 ≤ s.length := by
  rw [List.isPrefixOf_iff_prefix] at h
  have := h.length_le
  simpa [orSep] using this

theorem splitOnOr_mem_le (s : List Char) : ∀ p ∈ splitOnOr s, p.length ≤ s.length := by
  induction s using splitOnOr.induct with
  | case1 => intro p hp; simp [splitOnOr] at hp; simp [hp]
  | case2 c rest h ih =>
    intro p hp
    rw [splitOnOr.eq_def] at hp
    dsimp only at hp
    rw [if_pos h] at hp
    rw [List.mem_cons] at hp
    have h4 := isPrefixOf_orSep_length _ h
    rcases hp with hp | hp
    · simp [hp]
    · have := ih p hp
      simp only [List.length_drop, List.length_cons] at *
      omega
  | case3 c rest h ih =>
    intro p hp
    rw [splitOnOr.eq_def] at hp
    dsimp only at hp
    rw [if_neg h] at hp
    rcases he : splitOnOr rest with _ | ⟨w, ws⟩
    · exact absurd he (splitOnOr_ne_nil rest)
    · rw [he] at hp
      simp only [consHead, List.mem_cons] at hp
      rcases hp with hp | hp
      · have := ih w (by rw [he]; exact List.mem_cons_self w ws)
        simp only [hp, List.length_cons]
        omega
      · have := ih p (by rw [he]; exact List.mem_cons_of_mem w hp)
        simp only [List.length_cons]
        omega

theorem containsOr_cons (c : Char) (rest : List Char)
    (h : orSep.isPrefixOf (c :: rest) = false) :
    containsOr (c :: rest) = containsOr rest := by
  simp [containsOr, containsSubstr, h]

theorem splitOnOr_mem_add4 (s : List Char) (hc : containsOr s = true) :
    ∀ p ∈ splitOnOr s, p.length + 4 ≤ s.length := by
  induction s using splitOnOr.induct with
  | case1 => simp [containsOr, containsSubstr, orSep] at hc
  | case2 c rest h ih =>
    intro p hp
    rw [splitOnOr.eq_def] at hp
    dsimp only at hp
    rw [if_pos h] at hp
    rw [List.mem_cons] at hp
    have h4 := isPrefixOf_orSep_length _ h
    rcases hp with hp | hp
    · simp only [hp, List.length_nil]
      omega
    · have := splitOnOr_mem_le _ p hp
      simp only [List.length_drop, List.length_cons] at *
      omega
  | case3 c rest h ih =>
    intro p hp
    have hb : orSep.isPrefixOf (c :: rest) = false := by
      rcases hbb : orSep.isPrefixOf (c :: rest) with _ | _
      · rfl
      · exact absurd hbb h
    rw [containsOr_cons c rest hb] at hc
    rw [splitOnOr.eq_def] at hp
    dsimp only at hp
    rw [if_neg h] at hp
    rcases he : splitOnOr rest with _ | ⟨w, ws⟩
    · exact absurd he (splitOnOr_ne_nil rest)
    · rw [he] at hp
      simp only [consHead, List.mem_cons] at hp
      rcases hp with hp | hp
      · have := ih hc w (by rw [he]; exact List.mem_cons_self w ws)
        simp only [hp, List.length_cons]
        omega
      · have := ih hc p (by rw [he]; exact List.mem_cons_of_mem w hp)
        simp only [List.length_cons]
        omega

theorem containsOr_countryAlias (y : List Char) (h : containsOr (countryAlias y) = true) :
    countryAlias y = y := by
  by_cases h1 : y = "burma".toList
  · rw [h1] at h; exact absurd h (by decide)
  by_cases h2 : y = "cabo verde".toList
  · rw [h2] at h; exact absurd h (by decide)
  by_cases h3 : y = "congo, democratic republic of".toList
  · rw [h3] at h; exact absurd h (by decide)
  by_cases h4 : y = "congo, republic of".toList
  · rw [h4] at h; exact absurd h (by decide)
  by_cases h5 : y = "gaza strip".toList
  · rw [h5] at h; exact absurd h (by decide)
  by_cases h6 : y = "west bank".toList
  · rw [h6] at h; exact absurd h (by decide)
  by_cases h7 : y = "hong kong".toList
  · rw [h7] at h; exact absurd h (by decide)
  by_cases h8 : y = "macau".toList
  · rw [h8] at h; exact absurd h (by decide)
  by_cases h9 : y = "svalbard".toList
  · rw [h9] at h; exact absurd h (by decide)
  by_cases h10 : y = "virgin islands".toList
  · rw [h10] at h; exact absurd h (by decide)
  unfold countryAlias
  rw [if_neg h1, if_neg h2, if_neg h3, if_neg h4, if_neg h5, if_neg h6, if_neg h7,
    if_neg h8, if_neg h9, if_neg h10]

/-!  The Code Resolvers (find_language_code lines 83-112 and
find_country_code lines 115-184).

The recursion of the alternation fallback terminates because every
alternative of a name containing the literal " or " is at least four
characters shorter than the name, and sanitizing never lengthens a
string (the alias table can lengthen one, but none of its results
contains " or ", so the alias is the identity on every name that
reaches the alternation branch). -/

/-- The dictionary probe _find_language_code (and _find_country_code). -/
def underFind (codes : List (List Char × List Char)) (name : List Char) :
    Option (List Char) :=
  lookupD codes name

/-- The anchored pattern of line 174, a prefix, a space, a parenthesized
tail and the end of the string; the first group is greedy, so the last
occurrence of the space-parenthesis pair is taken.  Names reaching this
point contain no newline (they are joins of whitespace-free tokens), so
the dot of the pattern matches every character. -/
def matchAltName (name : List Char) : Option (List Char × List Char) :=
  if name.getLast? = some ')' then
    let body := name.dropLast
    let ps := (List.range body.length).filter (fun i => (" (".toList).isPrefixOf (body.drop i))
    match ps.getLast? with
    | some i => some (body.take i, body.drop (i + 2))
    | none => none
  else none

/-- find_language_code: sanitize, direct lookup, then the " or "
alternation fallback (lines 89-112); warnings are not modelled. -/
def find_language_code (codes : List (List Char × List Char)) (language_name : List Char) :
    Option (List Char) :=
  let name := langSanitize language_name
  match underFind codes name with
  | some result => some result
  | none =>
    if h : containsOr name = true then
      firstSome ((splitOnOr name).attach.map
        (fun x => find_language_code codes (pyStrip x.1)))
    else none
termination_by language_name.length
decreasing_by
  have hx := x.2
  have h1 := splitOnOr_mem_add4 _ h _ hx
  have h2 : name.length ≤ language_name.length := langSanitize_length language_name
  have h3 := pyStrip_length_le x.1
  omega

/-- find_country_code: sanitize, the Kosovo special case, the alias
table, direct lookup, the " or " alternation fallback, the comma
inversion and truncation fallback, and the parenthesized alternate-name
fallback (lines 121-184); warnings are not modelled. -/
def find_country_code (codes : List (List Char × List Char)) (country_name : List Char) :
    Option (List Char) :=
  let name0 := countrySanitize country_name
  if name0 = "kosovo".toList then some ("XK".toList)
  else
    let name := countryAlias name0
    match underFind codes name with
    | some result => some result
    | none =>
      if h : containsOr name = true then
        firstSome ((splitOnOr name).attach.map
          (fun x => find_country_code codes (pyStrip x.1)))
      else
        match (if name.contains ',' then
                 match underFind codes (joinSp (((splitComma name).reverse).map pyStrip)) with
                 | some c => some c
                 | none => underFind codes (name.takeWhile (fun ch => ch ≠ ','))
               else none) with
        | some c => some c
        | none =>
          match matchAltName name with
          | some groups =>
            match underFind codes (pyStrip groups.2) with
            | some c => some c
            | none => underFind codes (pyStrip groups.1)
          | none => none
termination_by country_name.length
decreasing_by
  have hx := x.2
  have hid : name = name0 := containsOr_countryAlias name0 h
  have h1 := splitOnOr_mem_add4 name h _ hx
  have h4 : name.length = name0.length := by rw [hid]
  have h2 : name0.length ≤ country_name.length := countrySanitize_length country_name
  have h3 := pyStrip_length_le x.1
  omega

/-!  The Entry Parser (parse_langs, lines 51-65) and its percent pattern.

The search pattern of line 56 is, in order of preference at each start
position: one to three digits, an optional separator (dot or comma)
followed by zero to ten digits, then an optional space and a percent
sign; or a separator followed by one to ten digits, then an optional
space and a percent sign.  The model enumerates the backtracking
choices of the Python engine in its preference order: leftmost start
position first, first alternative first, longer digit runs first,
fraction present before fraction absent. -/

/-- Length of the leading run of ASCII digits. -/
def digitRun (s : List Char) : Nat := (s.takeWhile Char.isDigit).length

/-- Matches the trailing part of the percent pattern, an optional
space then a percent sign. -/
def matchSuffixPct : List Char → Bool
  | '%' :: _ => true
  | ' ' :: '%' :: _ => true
  | _ => false

/-- Tries k, k-1, ..., 0 and returns the first value accepted. -/
def firstK (p : Nat → Bool) : Nat → Option Nat
  | 0 => if p 0 then some 0 else none
  | k + 1 => if p (k + 1) then some (k + 1) else firstK p k

/-- Decimal separator of the percent pattern. -/
def isSepC (c : Char) : Bool := c == '.' || c == ','

/-- After n1 integer digits of the first alternative, tries the optional
fractional group (longest first), then no fractional group. -/
def fracThen (s : List Char) (n1 : Nat) : Option (List Char) :=
  let rest1 := s.drop n1
  let fracOpt :=
    match rest1 with
    | c :: ds =>
      if isSepC c then
        (firstK (fun k => matchSuffixPct (ds.drop k)) (min 10 (digitRun ds))).map
          (fun k => s.take (n1 + 1 + k))
      else none
    | [] => none
  match fracOpt with
  | some g => some g
  | none => if matchSuffixPct rest1 then some (s.take n1) else none

/-- First alternative with exactly n1 leading integer digits. -/
def altOneTry (s : List Char) (n1 : Nat) : Option (List Char) :=
  if 1 ≤ n1 ∧ n1 ≤ digitRun s then fracThen s n1 else none

/-- First alternative of the percent pattern at this start position. -/
def altOne (s : List Char) : Option (List Char) :=
  firstSome [altOneTry s 3, altOneTry s 2, altOneTry s 1]

/-- Second alternative of the percent pattern at this start position:
a separator and one to ten digits. -/
def altTwo (s : List Char) : Option (List Char) :=
  match s with
  | c :: ds =>
    if isSepC c ∧ 1 ≤ digitRun ds then
      (firstK (fun k => decide (1 ≤ k) && matchSuffixPct (ds.drop k)) (min 10 (digitRun ds))).map
        (fun k => s.take (1 + k))
    else none
  | [] => none

/-- re.search of line 56: the first group of the leftmost match. -/
def searchPercent : List Char → Option (List Char)
  | [] => none
  | c :: rest =>
    match (match altOne (c :: rest) with
           | some g => some g
           | none => altTwo (c :: rest)) with
    | some g => some g
    | none => searchPercent rest

/-- Numeric value of a run of ASCII digits. -/
def digitsToNat (ds : List Char) : Nat :=
  ds.foldl (fun a c => a * 10 + (c.toNat - 48)) 0

/-- float() of line 57 applied to the captured group: the strings the
percent pattern can capture are digits optionally followed by a
separator and more digits, or a separator followed by digits; float()
accepts exactly those whose separator, if any, is a dot, and raises
ValueError otherwise, which is modelled by none.  The value is modelled
as an exact rational. -/
def pyFloatGroup (g : List Char) : Option Rat :=
  let intPart := g.takeWhile Char.isDigit
  let rest := g.dropWhile Char.isDigit
  match rest with
  | [] => if intPart.isEmpty then none else some (digitsToNat intPart : Rat)
  | '.' :: ds =>
    if ds.all Char.isDigit ∧ (!intPart.isEmpty || !ds.isEmpty) then
      some ((digitsToNat intPart : Rat) + (digitsToNat ds : Rat) / ((10 : Rat) ^ ds.length))
    else none
  | _ => none

/-- The character class of the name pattern of line 59. -/
def isNameChar (c : Char) : Bool :=
  (65 ≤ c.toNat && c.toNat ≤ 90) || (97 ≤ c.toNat && c.toNat ≤ 122) || c == ' ' || c == '-'

/-- The LanguageInfo dataclass of lines 11-18. -/
structure LanguageInfo where
  full_descr : List Char
  name : List Char
  code : Option (List Char)
  percent : Option Rat
  official : Bool
  index : Nat
  deriving DecidableEq

/-- One iteration of the parse_langs loop body (lines 55-64) on the
entry substring descr at position index; the float() call of line 57
can raise, modelled by Except.error. -/
def parseEnt (codes : List (List Char × List Char)) (index : Nat) (descr : List Char) :
    Except Unit LanguageInfo :=
  match (match searchPercent descr with
         | none => Except.ok (none : Option Rat)
         | some g =>
           match pyFloatGroup g with
           | none => Except.error ()
           | some q => Except.ok (some q)) with
  | Except.error e => Except.error e
  | Except.ok percent =>
    let official := containsSubstr ("official".toList) (pyLower descr)
    let nameRun := descr.takeWhile isNameChar
    let name := if nameRun.isEmpty then pyLower descr else pyLower (pyStrip nameRun)
    let code := find_language_code codes name
    Except.ok ⟨descr, name, code, percent, official, index⟩

/-- The enumerate loop of parse_langs over the segmented entries. -/
def parseLangsFrom (codes : List (List Char × List Char)) (index : Nat) :
    List (List Char) → Except Unit (List LanguageInfo)
  | [] => Except.ok []
  | d :: ds =>
    match parseEnt codes index d with
    | Except.error e => Except.error e
    | Except.ok entry =>
      match parseLangsFrom codes (index + 1) ds with
      | Except.error e => Except.error e
      | Except.ok rest => Except.ok (entry :: rest)

/-- parse_langs (lines 51-65): segment the description and parse each
entry in order, propagating a float() ValueError as an error. -/
def parse_langs (codes : List (List Char × List Char)) (list_descr : List Char) :
    Except Unit (List LanguageInfo) :=
  parseLangsFrom codes 0 (split_lang_descr list_descr)

/-!  The Record Formatter (format, lines 68-80). -/

/-- The output record shape of lines 74-80. -/
structure OutRecord where
  label : List Char
  code : Option (List Char)
  percent : Option Rat
  official : Bool
  position : Nat
  deriving DecidableEq

/-- The dictionary built for one kept entry (lines 74-80). -/
def mkRecord (lng : LanguageInfo) : OutRecord :=
  ⟨lng.name, lng.code, lng.percent, lng.official, lng.index + 1⟩

/-- The relevance filter of line 70. -/
def keepLang (l : LanguageInfo) : Bool :=
  l.code.isSome || (decide (l.index < 5) || l.percent.isSome)

/-- format (lines 68-80): filter the entries and shape each kept one;
the warning loop of lines 71-73 only prints and is not modelled. -/
def format (lng_list : List LanguageInfo) : List OutRecord :=
  (lng_list.filter keepLang).map mkRecord

/-!  Helper lemmas for the claim theorems. -/

theorem keepLang_iff (e : LanguageInfo) :
    keepLang e = true ↔ (e.code.isSome = true ∨ e.index < 5 ∨ e.percent.isSome = true) := by
  unfold keepLang
  simp [Bool.or_eq_true, decide_eq_true_iff]

theorem keepLang_of_mkRecord_eq (e e' : LanguageInfo) (h : mkRecord e' = mkRecord e) :
    keepLang e' = keepLang e := by
  unfold mkRecord at h
  injection h with h1 h2 h3 h4 h5
  have h6 : e'.index = e.index := by omega
  unfold keepLang
  rw [h2, h3, h6]

theorem parseEnt_index (codes : List (List Char × List Char)) (i : Nat) (d : List Char)
    (entry : LanguageInfo) (h : parseEnt codes i d = Except.ok entry) : entry.index = i := by
  unfold parseEnt at h
  split at h
  · exact Except.noConfusion h
  · injection h with h1
    rw [← h1]

theorem parseLangsFrom_indices (codes : List (List Char × List Char)) (ds : List (List Char)) :
    ∀ (i : Nat) (l : List LanguageInfo), parseLangsFrom codes i ds = Except.ok l →
      l.map LanguageInfo.index = List.range' i l.length := by
  induction ds with
  | nil =>
    intro i l h
    unfold parseLangsFrom at h
    injection h with h1
    rw [← h1]
    simp
  | cons d ds ih =>
    intro i l h
    unfold parseLangsFrom at h
    cases hpe : parseEnt codes i d with
    | error e => rw [hpe] at h; exact Except.noConfusion h
    | ok entry =>
      rw [hpe] at h
      cases hrest : parseLangsFrom codes (i + 1) ds with
      | error e => rw [hrest] at h; exact Except.noConfusion h
      | ok rest =>
        rw [hrest] at h
        injection h with h1
        rw [← h1]
        have hidx := parseEnt_index codes i d entry hpe
        have htail := ih (i + 1) rest hrest
        simp only [List.map_cons, List.length_cons, htail, hidx]
        rw [List.range'_succ i rest.length 1]

/-!  Claim theorems. -/

/-- C1: the claim states that a percentage matched with a comma decimal
separator is converted using a dot decimal point, so that the entry
"Tagalog 33,3%" yields percent 33.3.  On the code the percent pattern
does capture "33,3", but float() rejects a comma separator, so the
Entry Parser raises ValueError on this entry instead of returning a
number: the capture, the failing conversion and the resulting error are
evaluated here. -/
theorem claim_C1_comma_percent_raises :
    searchPercent ("Tagalog 33,3%".toList) = some ("33,3".toList) ∧
    pyFloatGroup ("33,3".toList) = none ∧
    parseEnt [] 0 ("Tagalog 33,3%".toList) = Except.error () :=
  ⟨by decide, by decide, rfl⟩

/-- C2: the claim states that the Entry Parser raises no exception on
any entry and that parse_langs is total.  The description
"Tagalog (33,3%) x" segments into the single entry "Tagalog (33,3%)",
whose percent pattern captures "33,3"; float() then raises ValueError,
so parse_langs raises on this input. -/
theorem claim_C2_parse_langs_raises :
    parse_langs [] ("Tagalog (33,3%) x".toList) = Except.error () := rfl

/-- C3 counterexample: segmenting "a (b, c), d" does not yield
["a (b, c)", "d"]; the final entry is emitted as descr[start:len-1],
which drops the last character "d" and leaves the empty string. -/
theorem claim_C3_counterexample :
    split_lang_descr ("a (b, c), d".toList) ≠ ["a (b, c)".toList, "d".toList] := by decide

/-- C3 amended: the Segmenter does not split at the comma between an
opening parenthesis it has entered and the next closing parenthesis,
and each comma-delimited entry is emitted as the full trimmed text, but
the final end-of-string entry loses its last character before trimming:
"a (b, c), d" gives ["a (b, c)", ""] and "a (b, c), d, e" gives
["a (b, c)", "d", ""].  Nesting is not tracked, so a comma inside an
outer balanced group can still split once a nested group has closed:
"a ((b, c), e)" gives ["a ((b, c)", "e"]. -/
theorem claim_C3_segmenter_behaviour :
    split_lang_descr ("a (b, c), d".toList) = ["a (b, c)".toList, "".toList] ∧
    split_lang_descr ("a (b, c), d, e".toList) = ["a (b, c)".toList, "d".toList, "".toList] ∧
    split_lang_descr ("a ((b, c), e)".toList) = ["a ((b, c)".toList, "e".toList] :=
  ⟨by decide, by decide, by decide⟩

/-- C4 counterexample: when the closing parenthesis is the last
character of the description, the final entry is not emitted at all:
segmenting "a (b)" yields the empty list, and in particular the claimed
final entry "a (b)" is not among the results. -/
theorem claim_C4_counterexample :
    split_lang_descr ("a (b)".toList) = [] ∧
    ¬ ("a (b)".toList ∈ split_lang_descr ("a (b)".toList)) := by
  constructor <;> decide

/-- C4 amended: exiting the parenthesis does not emit; if the closing
parenthesis is the last character the scan loop terminates without
emitting the final entry, and only a trailing comma, or characters
followed by the end of the string (whose last character is then
dropped), trigger emission via the outside-parenthesis branch. -/
theorem claim_C4_close_paren_at_end :
    split_lang_descr ("a (b)".toList) = [] ∧
    split_lang_descr ("a (b),".toList) = ["a (b)".toList] ∧
    split_lang_descr ("a (b) x".toList) = ["a (b)".toList] :=
  ⟨by decide, by decide, by decide⟩

/-- C5 counterexample: segmenting the unterminated "a (b, c" does not
yield ["a (b, c"]; the recovery slice descr[start:len-1] drops the
final character. -/
theorem claim_C5_counterexample :
    split_lang_descr ("a (b, c".toList) ≠ ["a (b, c".toList] := by decide

/-- C5 amended: on an unterminated parenthesis the Segmenter treats the
remainder of the string minus its final character as the final entry
and emits it trimmed, without failing: "a (b, c" yields ["a (b,"]. -/
theorem claim_C5_unterminated_recovery :
    split_lang_descr ("a (b, c".toList) = ["a (b,".toList] := by decide

/-- C6 and C10 use the resolvers; C7 first: the Record Formatter keeps
an entry iff it has a resolved code, or its zero-based index is below
five, or it has a parsed percentage; in particular six entries at
display positions 1-6 where only the sixth lacks both a code and a
percentage are formatted to exactly the first five. -/
theorem claim_C7_format_filter (lng_list : List LanguageInfo) (e : LanguageInfo)
    (h : e ∈ lng_list) :
    (mkRecord e ∈ format lng_list ↔
      (e.code.isSome = true ∨ e.index < 5 ∨ e.percent.isSome = true)) ∧
    format
      [⟨"A1".toList, "a1".toList, some "C1".toList, none, false, 0⟩,
       ⟨"A2".toList, "a2".toList, some "C2".toList, none, false, 1⟩,
       ⟨"A3".toList, "a3".toList, some "C3".toList, none, false, 2⟩,
       ⟨"A4".toList, "a4".toList, some "C4".toList, none, false, 3⟩,
       ⟨"A5".toList, "a5".toList, some "C5".toList, none, false, 4⟩,
       ⟨"A6".toList, "a6".toList, none, none, false, 5⟩] =
      [⟨"a1".toList, some "C1".toList, none, false, 1⟩,
       ⟨"a2".toList, some "C2".toList, none, false, 2⟩,
       ⟨"a3".toList, some "C3".toList, none, false, 3⟩,
       ⟨"a4".toList, some "C4".toList, none, false, 4⟩,
       ⟨"a5".toList, some "C5".toList, none, false, 5⟩] := by
  constructor
  · constructor
    · intro hm
      unfold format at hm
      rcases List.mem_map.mp hm with ⟨e', he', heq⟩
      rcases List.mem_filter.mp he' with ⟨_, hk⟩
      rw [keepLang_of_mkRecord_eq e e' heq] at hk
      exact (keepLang_iff e).mp hk
    · intro hc
      unfold format
      exact List.mem_map_of_mem mkRecord
        (List.mem_filter.mpr ⟨h, (keepLang_iff e).mpr hc⟩)
  · decide

/-- C7 witness: the filter equivalence and the six-entry example
instantiated at a concrete entry of a concrete list. -/
theorem claim_C7_witness :
    ((mkRecord ⟨"W".toList, "w".toList, none, none, true, 0⟩ ∈
        format [⟨"W".toList, "w".toList, none, none, true, 0⟩]) ↔
      ((none : Option (List Char)).isSome = true ∨ (0 : Nat) < 5 ∨
        (none : Option Rat).isSome = true)) ∧
    format
      [⟨"A1".toList, "a1".toList, some "C1".toList, none, false, 0⟩,
       ⟨"A2".toList, "a2".toList, some "C2".toList, none, false, 1⟩,
       ⟨"A3".toList, "a3".toList, some "C3".toList, none, false, 2⟩,
       ⟨"A4".toList, "a4".toList, some "C4".toList, none, false, 3⟩,
       ⟨"A5".toList, "a5".toList, some "C5".toList, none, false, 4⟩,
       ⟨"A6".toList, "a6".toList, none, none, false, 5⟩] =
      [⟨"a1".toList, some "C1".toList, none, false, 1⟩,
       ⟨"a2".toList, some "C2".toList, none, false, 2⟩,
       ⟨"a3".toList, some "C3".toList, none, false, 3⟩,
       ⟨"a4".toList, some "C4".toList, none, false, 4⟩,
       ⟨"a5".toList, some "C5".toList, none, false, 5⟩] :=
  claim_C7_format_filter [⟨"W".toList, "w".toList, none, none, true, 0⟩]
    ⟨"W".toList, "w".toList, none, none, true, 0⟩ (by decide)

/-- C8 counterexample: the claim says the position values of a parsed
sequence start at 1; parsing "ab x" yields one entry whose index is 0,
so the sequence of stored positions is [0], not [1]. -/
theorem claim_C8_counterexample :
    ¬ (∀ l, parse_langs [] ("ab x".toList) = Except.ok l →
        l.map LanguageInfo.index = List.range' 1 l.length) := by
  intro hcl
  have h := hcl [⟨"ab".toList, "ab".toList, find_language_code [] ("ab".toList),
    none, false, 0⟩] rfl
  exact absurd h (by decide)

/-- C8 amended: the stored index values of a parsed sequence are
consecutive starting at 0 (and hence strictly increasing), and each
formatted record re-exposes them as the one-based display rank
index + 1. -/
theorem claim_C8_positions (codes : List (List Char × List Char)) (descr : List Char)
    (l : List LanguageInfo) (h : parse_langs codes descr = Except.ok l) :
    l.map LanguageInfo.index = List.range l.length ∧
    ∀ e ∈ l, (mkRecord e).position = e.index + 1 := by
  constructor
  · have hh := parseLangsFrom_indices codes (split_lang_descr descr) 0 l h
    rw [List.range_eq_range']
    exact hh
  · intro e _
    rfl

/-- C8 witness: the amended claim evaluated on the one-entry parse of
"ab x" with an empty reference table. -/
theorem claim_C8_witness :
    ([(⟨"ab".toList, "ab".toList, find_language_code [] ("ab".toList), none, false, 0⟩ :
        LanguageInfo)].map LanguageInfo.index =
      List.range [(⟨"ab".toList, "ab".toList, find_language_code [] ("ab".toList),
        none, false, 0⟩ : LanguageInfo)].length) ∧
    ∀ e ∈ [(⟨"ab".toList, "ab".toList, find_language_code [] ("ab".toList), none, false, 0⟩ :
        LanguageInfo)], (mkRecord e).position = e.index + 1 :=
  claim_C8_positions [] ("ab x".toList)
    [⟨"ab".toList, "ab".toList, find_language_code [] ("ab".toList), none, false, 0⟩] rfl

theorem containsOr_alias_self (y : List Char) (h : containsOr y = true) :
    countryAlias y = y := by
  by_cases h1 : y = "burma".toList
  · rw [h1] at h; exact absurd h (by decide)
  by_cases h2 : y = "cabo verde".toList
  · rw [h2] at h; exact absurd h (by decide)
  by_cases h3 : y = "congo, democratic republic of".toList
  · rw [h3] at h; exact absurd h (by decide)
  by_cases h4 : y = "congo, republic of".toList
  · rw [h4] at h; exact absurd h (by decide)
  by_cases h5 : y = "gaza strip".toList
  · rw [h5] at h; exact absurd h (by decide)
  by_cases h6 : y = "west bank".toList
  · rw [h6] at h; exact absurd h (by decide)
  by_cases h7 : y = "hong kong".toList
  · rw [h7] at h; exact absurd h (by decide)
  by_cases h8 : y = "macau".toList
  · rw [h8] at h; exact absurd h (by decide)
  by_cases h9 : y = "svalbard".toList
  · rw [h9] at h; exact absurd h (by decide)
  by_cases h10 : y = "virgin islands".toList
  · rw [h10] at h; exact absurd h (by decide)
  unfold countryAlias
  rw [if_neg h1, if_neg h2, if_neg h3, if_neg h4, if_neg h5, if_neg h6, if_neg h7,
    if_neg h8, if_neg h9, if_neg h10]

/-- C6: when the sanitized country name contains " or " and its direct
lookup fails, the result of find_country_code is exactly the first
successful recursive resolution of the stripped " or "-separated
alternatives (None when all fail); in particular neither the comma
inversion nor the parenthesized fallback is ever consulted for such a
name, since the result below is fully determined by the recursive
calls.  No alias value contains " or ", so the alias table is the
identity on such names, and "kosovo" contains no " or ", so the special
case cannot fire. -/
theorem claim_C6_or_short_circuit (codes : List (List Char × List Char)) (cn : List Char)
    (h1 : containsOr (countrySanitize cn) = true)
    (h2 : lookupD codes (countrySanitize cn) = none) :
    find_country_code codes cn =
      firstSome ((splitOnOr (countrySanitize cn)).map
        (fun n => find_country_code codes (pyStrip n))) := by
  have hkos : ¬ (countrySanitize cn = "kosovo".toList) := by
    intro he
    rw [he] at h1
    exact absurd h1 (by decide)
  have hid : countryAlias (countrySanitize cn) = countrySanitize cn :=
    containsOr_alias_self _ h1
  have h2' : underFind codes (countryAlias (countrySanitize cn)) = none := by
    rw [hid]; exact h2
  rw [find_country_code.eq_def]
  dsimp only
  rw [if_neg hkos, h2', dif_pos (by rw [hid]; exact h1)]
  rw [hid]
  simp

/-- C6 witness: the sanitized name "dutch or flemish" contains " or ",
fails direct lookup in the one-entry table, and resolves through the
alternation branch. -/
theorem claim_C6_witness :
    containsOr (countrySanitize ("Dutch or Flemish".toList)) = true ∧
    lookupD [("dutch".toList, "NL".toList)] (countrySanitize ("Dutch or Flemish".toList)) =
      none ∧
    find_country_code [("dutch".toList, "NL".toList)] ("Dutch or Flemish".toList) =
      firstSome ((splitOnOr (countrySanitize ("Dutch or Flemish".toList))).map
        (fun n => find_country_code [("dutch".toList, "NL".toList)] (pyStrip n))) :=
  ⟨by decide, by decide,
    claim_C6_or_short_circuit [("dutch".toList, "NL".toList)] ("Dutch or Flemish".toList)
      (by decide) (by decide)⟩

theorem lookupD_mem (codes : List (List Char × List Char)) (k v : List Char)
    (h : lookupD codes k = some v) : (k, v) ∈ codes := by
  induction codes with
  | nil => exact Option.noConfusion h
  | cons kv rest ih =>
    rcases kv with ⟨k', v'⟩
    unfold lookupD at h
    split at h
    · injection h with h1
      subst h1
      simp_all
    · exact List.mem_cons_of_mem _ (ih h)

theorem firstSome_mem {α : Type} (l : List (Option α)) (c : α)
    (h : firstSome l = some c) : some c ∈ l := by
  induction l with
  | nil => exact Option.noConfusion h
  | cons o rest ih =>
    cases o with
    | some x =>
      unfold firstSome at h
      injection h with h1
      subst h1
      exact List.mem_cons_self _ _
    | none =>
      unfold firstSome at h
      exact List.mem_cons_of_mem _ (ih h)

theorem underFind_mem (codes : List (List Char × List Char)) (k v : List Char)
    (h : underFind codes k = some v) : (k, v) ∈ codes := lookupD_mem codes k v h

theorem find_language_code_from_table (n : Nat) : ∀ (ln : List Char), ln.length = n →
    ∀ (codes : List (List Char × List Char)) (c : List Char),
      find_language_code codes ln = some c → ∃ k, (k, c) ∈ codes := by
  induction n using Nat.strong_induction_on with
  | _ n ih =>
    intro ln hlen codes c h
    rw [find_language_code.eq_def] at h
    dsimp only at h
    split at h
    · next result heq =>
      injection h with h1
      subst h1
      exact ⟨langSanitize ln, underFind_mem _ _ _ heq⟩
    · next heq =>
      split at h
      · next hOr =>
        have hm := firstSome_mem _ _ h
        rcases List.mem_map.mp hm with ⟨x, hx, hfx⟩
        have hlt : (pyStrip x.1).length < n := by
          have ha := splitOnOr_mem_add4 _ hOr _ x.2
          have hb := langSanitize_length ln
          have hc2 := pyStrip_length_le x.1
          omega
        exact ih _ hlt (pyStrip x.1) rfl codes c hfx
      · exact Option.noConfusion h

theorem find_country_code_from_table (n : Nat) : ∀ (cn : List Char), cn.length = n →
    ∀ (codes : List (List Char × List Char)) (c : List Char),
      find_country_code codes cn = some c →
        (∃ k, (k, c) ∈ codes) ∨ c = "XK".toList := by
  induction n using Nat.strong_induction_on with
  | _ n ih =>
    intro cn hlen codes c h
    rw [find_country_code.eq_def] at h
    dsimp only at h
    split at h
    · injection h with h1
      exact Or.inr h1.symm
    · split at h
      · next result heq =>
        injection h with h1
        subst h1
        exact Or.inl ⟨_, underFind_mem _ _ _ heq⟩
      · next heq =>
        split at h
        · next hOr =>
          have hm := firstSome_mem _ _ h
          rcases List.mem_map.mp hm with ⟨x, hx, hfx⟩
          have hid : countryAlias (countrySanitize cn) = countrySanitize cn :=
            containsOr_countryAlias _ hOr
          have hlt : (pyStrip x.1).length < n := by
            have ha := splitOnOr_mem_add4 _ hOr _ x.2
            have hb := countrySanitize_length cn
            have hc2 := pyStrip_length_le x.1
            have hd : (countryAlias (countrySanitize cn)).length =
                (countrySanitize cn).length := by rw [hid]
            omega
          exact ih _ hlt (pyStrip x.1) rfl codes c hfx
        · split at h
          · next c' heq2 =>
            injection h with h1
            subst h1
            split at heq2
            · split at heq2
              · next heq3 =>
                injection heq2 with h2
                subst h2
                exact Or.inl ⟨_, underFind_mem _ _ _ heq3⟩
              · exact Or.inl ⟨_, underFind_mem _ _ _ heq2⟩
            · exact Option.noConfusion heq2
          · split at h
            · split at h
              · next heq4 =>
                injection h with h2
                subst h2
                exact Or.inl ⟨_, underFind_mem _ _ _ heq4⟩
              · exact Or.inl ⟨_, underFind_mem _ _ _ h⟩
            · exact Option.noConfusion h

/-- C10: every non-None result of the language Code Resolver is a value
stored in the reference table, and every non-None result of the country
Code Resolver is a value stored in the reference table or the literal
"XK"; no other code is ever fabricated.  All success paths are direct
table probes, the hardcoded Kosovo case, or recursive resolutions of a
strictly shorter name. -/
theorem claim_C10_codes_from_table (codes : List (List Char × List Char))
    (name : List Char) (c : List Char) :
    (find_language_code codes name = some c → ∃ k, (k, c) ∈ codes) ∧
    (find_country_code codes name = some c → (∃ k, (k, c) ∈ codes) ∨ c = "XK".toList) :=
  ⟨fun h => find_language_code_from_table name.length name rfl codes c h,
   fun h => find_country_code_from_table name.length name rfl codes c h⟩

/-- C10 witness: the language resolver returns a value of the table on
a concrete hit, and the country resolver returns "XK" for Kosovo. -/
theorem claim_C10_witness :
    (∃ k, (k, "FR".toList) ∈ [("french".toList, "FR".toList)]) ∧
    ((∃ k, (k, "XK".toList) ∈ ([] : List (List Char × List Char))) ∨
      "XK".toList = "XK".toList) :=
  ⟨(claim_C10_codes_from_table [("french".toList, "FR".toList)] ("French".toList)
      ("FR".toList)).1 (by rw [find_language_code.eq_def]; decide),
   (claim_C10_codes_from_table [] ("Kosovo".toList) ("XK".toList)).2
      (by rw [find_country_code.eq_def]; decide)⟩

theorem char_ofNat_lower_toNat (m : Nat) (h1 : 97 ≤ m) (h2 : m ≤ 122) :
    (Char.ofNat m).toNat = m := by
  interval_cases m <;> rfl

theorem pyLowerChar_idem (c : Char) : pyLowerChar (pyLowerChar c) = pyLowerChar c := by
  unfold pyLowerChar
  by_cases h : 65 ≤ c.toNat ∧ c.toNat ≤ 90
  · rw [if_pos h]
    have hv : (Char.ofNat (c.toNat + 32)).toNat = c.toNat + 32 :=
      char_ofNat_lower_toNat _ (by omega) (by omega)
    rw [if_neg (by rw [hv]; omega)]
  · rw [if_neg h, if_neg h]

theorem splitAtWs_mem_chars (s : List Char) :
    ∀ w ∈ splitAtWs s, ∀ c ∈ w, c ∈ s := by
  induction s with
  | nil =>
    intro w hw c hc
    simp [splitAtWs] at hw
    subst hw
    simp at hc
  | cons a rest ih =>
    intro w hw c hc
    simp only [splitAtWs] at hw
    split at hw
    · rw [List.mem_cons] at hw
      rcases hw with hw | hw
      · subst hw; simp at hc
      · exact List.mem_cons_of_mem a (ih w hw c hc)
    · rcases he : splitAtWs rest with _ | ⟨v, vs⟩
      · exact absurd he (splitAtWs_ne_nil rest)
      · rw [he] at hw
        simp only [consHead, List.mem_cons] at hw
        rcases hw with hw | hw
        · subst hw
          rw [List.mem_cons] at hc
          rcases hc with hc | hc
          · rw [hc]; exact List.mem_cons_self _ _
          · exact List.mem_cons_of_mem a
              (ih v (by rw [he]; exact List.mem_cons_self v vs) c hc)
        · exact List.mem_cons_of_mem a
            (ih w (by rw [he]; exact List.mem_cons_of_mem v hw) c hc)

theorem splitAtWs_all_nows (s : List Char) :
    ∀ w ∈ splitAtWs s, ∀ c ∈ w, isWsC c = false := by
  induction s with
  | nil =>
    intro w hw c hc
    simp [splitAtWs] at hw
    subst hw
    simp at hc
  | cons a rest ih =>
    intro w hw c hc
    simp only [splitAtWs] at hw
    split at hw
    · rw [List.mem_cons] at hw
      rcases hw with hw | hw
      · subst hw; simp at hc
      · exact ih w hw c hc
    · next hws =>
      rcases he : splitAtWs rest with _ | ⟨v, vs⟩
      · exact absurd he (splitAtWs_ne_nil rest)
      · rw [he] at hw
        simp only [consHead, List.mem_cons] at hw
        rcases hw with hw | hw
        · subst hw
          rw [List.mem_cons] at hc
          rcases hc with hc | hc
          · subst hc
            simpa using hws
          · exact ih v (by rw [he]; exact List.mem_cons_self v vs) c hc
        · exact ih w (by rw [he]; exact List.mem_cons_of_mem v hw) c hc

theorem splitAtWs_nows (w : List Char) (hw : ∀ c ∈ w, isWsC c = false) :
    splitAtWs w = [w] := by
  induction w with
  | nil => rfl
  | cons a rest ih =>
    have ha : isWsC a = false := hw a (List.mem_cons_self a rest)
    have hrest : ∀ c ∈ rest, isWsC c = false :=
      fun c hc => hw c (List.mem_cons_of_mem a hc)
    simp only [splitAtWs, ha]
    rw [if_neg (by simp [ha]), ih hrest]
    rfl

theorem splitAtWs_append_nows (w : List Char) (hw : ∀ c ∈ w, isWsC c = false)
    (t : List Char) (hd : List Char) (tl : List (List Char))
    (he : splitAtWs t = hd :: tl) :
    splitAtWs (w ++ t) = (w ++ hd) :: tl := by
  induction w with
  | nil => simpa using he
  | cons a rest ih =>
    have ha : isWsC a = false := hw a (List.mem_cons_self a rest)
    have hrest : ∀ c ∈ rest, isWsC c = false :=
      fun c hc => hw c (List.mem_cons_of_mem a hc)
    simp only [List.cons_append, splitAtWs]
    rw [if_neg (by simp [ha])]
    show consHead a (splitAtWs (rest ++ t)) = (a :: (rest ++ hd)) :: tl
    rw [ih hrest]
    rfl

theorem pyWords_joinSp (ws : List (List Char))
    (hws : ∀ w ∈ ws, w ≠ [] ∧ ∀ c ∈ w, isWsC c = false) :
    pyWords (joinSp ws) = ws := by
  induction ws with
  | nil => rfl
  | cons w vs ih =>
    rcases hws w (List.mem_cons_self w vs) with ⟨hne, hnows⟩
    cases vs with
    | nil =>
      show pyWords (joinSp [w]) = [w]
      unfold joinSp pyWords
      rw [splitAtWs_nows w hnows]
      simp [hne]
    | cons v vs' =>
      have hvs : ∀ u ∈ v :: vs', u ≠ [] ∧ ∀ c ∈ u, isWsC c = false :=
        fun u hu => hws u (List.mem_cons_of_mem w hu)
      have ihv := ih hvs
      have hjoin : joinSp (w :: v :: vs') = w ++ ' ' :: joinSp (v :: vs') := rfl
      rcases he : splitAtWs (joinSp (v :: vs')) with _ | ⟨hd, tl⟩
      · exact absurd he (splitAtWs_ne_nil _)
      · have hsp : splitAtWs (' ' :: joinSp (v :: vs')) = [] :: hd :: tl := by
          simp only [splitAtWs]
          rw [if_pos (by decide), he]
        have happ := splitAtWs_append_nows w hnows (' ' :: joinSp (v :: vs')) []
          (hd :: tl) hsp
        have hwt : (!w.isEmpty) = true := by
          cases w
          · exact absurd rfl hne
          · rfl
        have hft : List.filter (fun u => !u.isEmpty) (hd :: tl) = v :: vs' := by
          have hpw : pyWords (joinSp (v :: vs')) = v :: vs' := ihv
          unfold pyWords at hpw
          rw [he] at hpw
          exact hpw
        unfold pyWords
        rw [hjoin, happ, List.append_nil, List.filter_cons, if_pos hwt, hft]

theorem list_map_fixed {α : Type} (l : List α) (f : α → α) (h : ∀ a ∈ l, f a = a) :
    l.map f = l := by
  induction l with
  | nil => rfl
  | cons a rest ih =>
    rw [List.map_cons, h a (List.mem_cons_self a rest),
      ih (fun b hb => h b (List.mem_cons_of_mem a hb))]

theorem pyLower_joinSp (ws : List (List Char)) :
    pyLower (joinSp ws) = joinSp (ws.map pyLower) := by
  induction ws with
  | nil => rfl
  | cons w vs ih =>
    cases vs with
    | nil => rfl
    | cons v vs' =>
      show pyLower (w ++ ' ' :: joinSp (v :: vs')) = _
      unfold pyLower
      rw [List.map_append, List.map_cons]
      have hsp : pyLowerChar ' ' = ' ' := rfl
      rw [hsp]
      unfold pyLower at ih
      rw [ih]
      rfl

theorem pyTokens_mem_good (s : List Char) :
    ∀ w ∈ pyTokens s, w ≠ [] ∧ (∀ c ∈ w, isWsC c = false) ∧ (∀ c ∈ w, pyLowerChar c = c) := by
  intro w hw
  unfold pyTokens pyWords at hw
  have hmem := List.mem_of_mem_filter hw
  have hne : (!w.isEmpty) = true := (List.mem_filter.mp hw).2
  refine ⟨?_, splitAtWs_all_nows _ w hmem, ?_⟩
  · intro he
    rw [he] at hne
    exact Bool.noConfusion hne
  · intro c hc
    have hcs := splitAtWs_mem_chars _ w hmem c hc
    unfold pyLower at hcs
    rcases List.mem_map.mp hcs with ⟨a, _, ha⟩
    rw [← ha]
    exact pyLowerChar_idem a

theorem pyTokens_joinSp (ts : List (List Char))
    (hgood : ∀ w ∈ ts, w ≠ [] ∧ (∀ c ∈ w, isWsC c = false) ∧ (∀ c ∈ w, pyLowerChar c = c)) :
    pyTokens (joinSp ts) = ts := by
  unfold pyTokens
  have hlow : pyLower (joinSp ts) = joinSp ts := by
    rw [pyLower_joinSp]
    rw [list_map_fixed ts pyLower
      (fun w hw => list_map_fixed w pyLowerChar (hgood w hw).2.2)]
  rw [hlow]
  exact pyWords_joinSp ts (fun w hw => ⟨(hgood w hw).1, (hgood w hw).2.1⟩)

theorem langSanitize_idem (s : List Char) :
    langSanitize (langSanitize s) = langSanitize s := by
  have hts : ∀ w ∈ (pyTokens s).filter (fun w => !(langIgnored.contains w)),
      w ≠ [] ∧ (∀ c ∈ w, isWsC c = false) ∧ (∀ c ∈ w, pyLowerChar c = c) :=
    fun w hw => pyTokens_mem_good s w (List.mem_of_mem_filter hw)
  have h1 : pyTokens (langSanitize s) =
      (pyTokens s).filter (fun w => !(langIgnored.contains w)) := by
    unfold langSanitize
    exact pyTokens_joinSp _ hts
  rw [langSanitize.eq_def]
  rw [h1]
  rw [List.filter_eq_self.mpr (fun w hw => (List.mem_filter.mp hw).2)]
  rfl

theorem countryRep_cases (w : List Char) :
    countryRep w = "&".toList ∨ countryRep w = "st.".toList ∨ countryRep w = w := by
  unfold countryRep
  split_ifs <;> simp

theorem countryRep_idem (u : List Char) : countryRep (countryRep u) = countryRep u := by
  rcases countryRep_cases u with h | h | h <;> rw [h]
  · decide
  · decide
  · exact h

theorem countrySanitize_idem (s : List Char) :
    countrySanitize (countrySanitize s) = countrySanitize s := by
  have hts : ∀ w ∈ ((pyTokens s).filter (fun w => !(countryIgnored.contains w))).map countryRep,
      w ≠ [] ∧ (∀ c ∈ w, isWsC c = false) ∧ (∀ c ∈ w, pyLowerChar c = c) := by
    intro w hw
    rcases List.mem_map.mp hw with ⟨u, hu, huw⟩
    have hgu := pyTokens_mem_good s u (List.mem_of_mem_filter hu)
    rcases countryRep_cases u with hcase | hcase | hcase <;> rw [← huw, hcase]
    · exact ⟨by decide, by decide, by decide⟩
    · exact ⟨by decide, by decide, by decide⟩
    · exact hgu
  have h1 : pyTokens (countrySanitize s) =
      ((pyTokens s).filter (fun w => !(countryIgnored.contains w))).map countryRep := by
    unfold countrySanitize
    exact pyTokens_joinSp _ hts
  have h2 : (((pyTokens s).filter (fun w => !(countryIgnored.contains w))).map
      countryRep).filter (fun w => !(countryIgnored.contains w)) =
      ((pyTokens s).filter (fun w => !(countryIgnored.contains w))).map countryRep := by
    apply List.filter_eq_self.mpr
    intro w hw
    rcases List.mem_map.mp hw with ⟨u, hu, huw⟩
    have hqu : (!(countryIgnored.contains u)) = true := (List.mem_filter.mp hu).2
    rcases countryRep_cases u with hcase | hcase | hcase <;> rw [← huw, hcase]
    · decide
    · decide
    · exact hqu
  have h3 : (((pyTokens s).filter (fun w => !(countryIgnored.contains w))).map
      countryRep).map countryRep =
      ((pyTokens s).filter (fun w => !(countryIgnored.contains w))).map countryRep := by
    apply list_map_fixed
    intro w hw
    rcases List.mem_map.mp hw with ⟨u, _, huw⟩
    rw [← huw]
    exact countryRep_idem u
  rw [countrySanitize.eq_def]
  rw [h1, h2, h3]
  rfl

theorem countryNormalize_idem (s : List Char) :
    countryAlias (countrySanitize (countryAlias (countrySanitize s))) =
      countryAlias (countrySanitize s) := by
  by_cases h1 : countrySanitize s = "burma".toList
  · rw [h1]; decide
  by_cases h2 : countrySanitize s = "cabo verde".toList
  · rw [h2]; decide
  by_cases h3 : countrySanitize s = "congo, democratic republic of".toList
  · rw [h3]; decide
  by_cases h4 : countrySanitize s = "congo, republic of".toList
  · rw [h4]; decide
  by_cases h5 : countrySanitize s = "gaza strip".toList
  · rw [h5]; decide
  by_cases h6 : countrySanitize s = "west bank".toList
  · rw [h6]; decide
  by_cases h7 : countrySanitize s = "hong kong".toList
  · rw [h7]; decide
  by_cases h8 : countrySanitize s = "macau".toList
  · rw [h8]; decide
  by_cases h9 : countrySanitize s = "svalbard".toList
  · rw [h9]; decide
  by_cases h10 : countrySanitize s = "virgin islands".toList
  · rw [h10]; decide
  have halias : countryAlias (countrySanitize s) = countrySanitize s := by
    unfold countryAlias
    rw [if_neg h1, if_neg h2, if_neg h3, if_neg h4, if_neg h5, if_neg h6, if_neg h7,
      if_neg h8, if_neg h9, if_neg h10]
  rw [halias, countrySanitize_idem, halias]

/-- C9: both Name Normalizer instances are idempotent: the language
sanitizer, and the country sanitizer followed by the alias table,
return their own output unchanged when applied again. -/
theorem claim_C9_normalizer_idempotent :
    (∀ s, langSanitize (langSanitize s) = langSanitize s) ∧
    (∀ s, countryAlias (countrySanitize (countryAlias (countrySanitize s))) =
      countryAlias (countrySanitize s)) :=
  ⟨langSanitize_idem, countryNormalize_idem⟩
